import Mathlib

/-!
# SharedSpinMutex: a verification development

Shallow embedding of `include/shared_spin_mutex.hpp`:

* `Sleepyhead`, the spin-then-sleep backoff helper;
* `SharedSpinMutex`, a reader-writer spin lock on one atomic 64-bit word.

The atomic word is a natural number below `2 ^ 64`; every atomic operation is
a pure function from the old word to the new word (and the value it returns).
The sequential loops take fuel; the concurrent behaviour is a step function
over a global state (the word and one program counter for each thread), one
step for each atomic operation.
-/

namespace SharedSpinMutex

/-! ## Sleepyhead -/

/-- Which branch a call of `Sleepyhead::wait` took. -/
inductive WaitPath where
  | pause
  | sleep
  deriving DecidableEq, Repr

/-- The class `Sleepyhead`: its only data member is `uint32_t spin_count`. -/
structure Sleepyhead where
  spin_count : Nat
  deriving DecidableEq, Repr

namespace Sleepyhead

/-- The constant `max_spin = 4000`. -/
def max_spin : Nat := 4000

/-- The constructor `Sleepyhead()`, which sets `spin_count(0)`. -/
def new : Sleepyhead := ⟨0⟩

/-- The method `wait()`: below `max_spin` it increments the (32-bit) counter and
pauses, otherwise it sleeps. The result is the object after the call and the
branch taken. -/
def wait (s : Sleepyhead) : Sleepyhead × WaitPath :=
  if s.spin_count < max_spin then
    (⟨(s.spin_count + 1) % 2 ^ 32⟩, WaitPath.pause)
  else
    (s, WaitPath.sleep)

/-- The object after `k` successive calls of `wait()`. -/
def waits : Nat → Sleepyhead → Sleepyhead
  | 0, s => s
  | k + 1, s => ((waits k s).wait).1

end Sleepyhead

/-! ## The atomic word and its operations -/

/-- The constant `bits_count = sizeof(IntT) * CHAR_BIT` for `IntT = uint64_t`. -/
def bits_count : Nat := 8 * 8

/-- The number of values of `IntT`: arithmetic on the word is modulo this. -/
def int_mod : Nat := 2 ^ bits_count

/-- The constant `biggest_bit_s_mask = 1 << (bits_count - 1)`: the exclusive flag. -/
def biggest_bit_s_mask : Nat := (1 <<< (bits_count - 1)) % int_mod

/-- The constant `half_max_value = biggest_bit_s_mask / 2`. -/
def half_max_value : Nat := biggest_bit_s_mask / 2

/-- The call `m.fetch_add(v)`: the returned previous value and the new word. -/
def fetch_add (m v : Nat) : Nat × Nat :=
  (m, (m + v) % int_mod)

/-- The call `m.fetch_sub(v)`: the returned previous value and the new word
(subtracting `v` modulo `int_mod` is adding `int_mod - v`). -/
def fetch_sub (m v : Nat) : Nat × Nat :=
  (m, ((int_mod - v % int_mod) + m) % int_mod)

/-- The call `m.store(v)`: the new word. -/
def store (_m v : Nat) : Nat := v

/-- The call `m.compare_exchange_strong(expected, desired)`: whether it
succeeded, the new word, and the new value of `expected`. -/
def compare_exchange_strong (m expected desired : Nat) : Bool × Nat × Nat :=
  if m = expected then (true, desired, expected) else (false, m, m)

/-- The call `m.compare_exchange_weak(expected, desired)`: as the strong form,
except that it may fail although the word equals `expected`; `spurious` says
whether this call does. -/
def compare_exchange_weak (m expected desired : Nat) (spurious : Bool) :
    Bool × Nat × Nat :=
  if m = expected ∧ spurious = false then (true, desired, expected) else (false, m, m)

/-- The test `(prev & biggest_bit_s_mask) == 0` of `lock_shared`. -/
def flag_clear (prev : Nat) : Bool :=
  (prev &&& biggest_bit_s_mask) == 0

/-- The reader-count field of a word: the bits below the exclusive flag. -/
def reader_count (w : Nat) : Nat := w % biggest_bit_s_mask

/-! ## The four operations, one loop iteration at a time -/

/-- What one iteration of the loop of `lock()` did. -/
structure LockIter where
  /-- Whether the iteration took the `break`. -/
  acquired : Bool
  /-- The word after the iteration. -/
  m : Nat
  /-- The backoff object after the iteration. -/
  sleepy : Sleepyhead
  /-- How many times the iteration called `sleepy.wait()`. -/
  waits : Nat
  deriving DecidableEq, Repr

/-- One iteration of the loop of `lock()`: the weak compare-exchange from `0`
to `biggest_bit_s_mask`, then `break` on success and `sleepy.wait()` on failure. -/
def lock_iter (m : Nat) (spurious : Bool) (sleepy : Sleepyhead) : LockIter :=
  let r := compare_exchange_weak m 0 biggest_bit_s_mask spurious
  if r.1 then ⟨true, r.2.1, sleepy, 0⟩ else ⟨false, r.2.1, (sleepy.wait).1, 1⟩

/-- What a call that returned left behind. -/
structure Returned where
  /-- The word when the call returned. -/
  m : Nat
  /-- How many loop iterations the call ran. -/
  iterations : Nat
  /-- How many times the call called `sleepy.wait()`. -/
  waits : Nat
  deriving DecidableEq, Repr

/-- The loop of `lock()` run by a thread on its own: `spurious i` says whether
the compare-exchange of iteration `i` fails spuriously; `none` when the fuel
runs out before the loop breaks. -/
def lock_loop : Nat → (Nat → Bool) → Nat → Sleepyhead → Nat → Nat → Option Returned
  | 0, _, _, _, _, _ => none
  | fuel + 1, spurious, m, sleepy, its, ws =>
    let r := lock_iter m (spurious 0) sleepy
    if r.acquired then some ⟨r.m, its + 1, ws + r.waits⟩
    else lock_loop fuel (fun i => spurious (i + 1)) r.m r.sleepy (its + 1) (ws + r.waits)

/-- The method `lock()` run by a thread on its own: a fresh `Sleepyhead`, then the loop. -/
def lock (fuel : Nat) (spurious : Nat → Bool) (m : Nat) : Option Returned :=
  lock_loop fuel spurious m Sleepyhead.new 0 0

/-- The method `unlock()`: the new word. -/
def unlock (m : Nat) : Nat := store m 0

/-- What the fetch-add of one iteration of `lock_shared()` led to. -/
inductive SharedFetch where
  /-- The flag was clear in `prev`: `break`. The argument is the new word. -/
  | acquired (m : Nat)
  /-- The flag was set and `prev > half_max_value`: the guard compare-exchange
  comes next. The arguments are the new word and `prev`. -/
  | guard (m : Nat) (prev : Nat)
  /-- The flag was set and `prev <= half_max_value`: straight to `sleepy.wait()`. -/
  | backoff (m : Nat)
  deriving DecidableEq, Repr

/-- The first atomic operation of an iteration of `lock_shared()` and the
branch taken on the value it returns. -/
def lock_shared_fetch (m : Nat) : SharedFetch :=
  let r := fetch_add m 1
  let prev := r.1
  if flag_clear prev then SharedFetch.acquired r.2
  else if prev > half_max_value then SharedFetch.guard r.2 prev
  else SharedFetch.backoff r.2

/-- The guard of `lock_shared()`: the strong compare-exchange from `++prev`
(the increment is on a `uint64_t`) to `biggest_bit_s_mask`. The result is
whether it succeeded and the new word. -/
def lock_shared_guard (m prev : Nat) : Bool × Nat :=
  let r := compare_exchange_strong m ((prev + 1) % int_mod) biggest_bit_s_mask
  (r.1, r.2.1)

/-- What one iteration of the loop of `lock_shared()` did. -/
structure SharedIter where
  /-- Whether the iteration took the `break`. -/
  acquired : Bool
  /-- The word after the iteration. -/
  m : Nat
  /-- The backoff object after the iteration. -/
  sleepy : Sleepyhead
  /-- Whether the guard compare-exchange ran, and if so whether it succeeded. -/
  guard : Option Bool
  /-- How many times the iteration called `sleepy.wait()`. -/
  waits : Nat
  deriving DecidableEq, Repr

/-- One iteration of the loop of `lock_shared()` with no other thread acting
between its fetch-add and its guard. -/
def lock_shared_iter (m : Nat) (sleepy : Sleepyhead) : SharedIter :=
  match lock_shared_fetch m with
  | SharedFetch.acquired m1 => ⟨true, m1, sleepy, none, 0⟩
  | SharedFetch.guard m1 prev =>
    let g := lock_shared_guard m1 prev
    ⟨false, g.2, (sleepy.wait).1, some g.1, 1⟩
  | SharedFetch.backoff m1 => ⟨false, m1, (sleepy.wait).1, none, 1⟩

/-- The loop of `lock_shared()` run by a thread on its own; `none` when the
fuel runs out before the loop breaks. -/
def lock_shared_loop : Nat → Nat → Sleepyhead → Nat → Nat → Option Returned
  | 0, _, _, _, _ => none
  | fuel + 1, m, sleepy, its, ws =>
    let r := lock_shared_iter m sleepy
    if r.acquired then some ⟨r.m, its + 1, ws + r.waits⟩
    else lock_shared_loop fuel r.m r.sleepy (its + 1) (ws + r.waits)

/-- The method `lock_shared()` run by a thread on its own. -/
def lock_shared (fuel : Nat) (m : Nat) : Option Returned :=
  lock_shared_loop fuel m Sleepyhead.new 0 0

/-- The method `unlock_shared()`: the new word. -/
def unlock_shared (m : Nat) : Nat := (fetch_sub m 1).2

/-! ## Call sequences of a single thread -/

/-- The sequence `lock(); unlock();` repeated `n` times by a thread on its own,
starting from the word `m`: the word after each repetition, or `none` when a
`lock()` runs out of fuel. `spurious j` is the spurious-failure oracle of the
`j`-th call of `lock()`. -/
def lock_unlock_times : Nat → Nat → (Nat → Nat → Bool) → Nat → Option (List Nat)
  | 0, _, _, _ => some []
  | n + 1, fuel, spurious, m =>
    match lock fuel (spurious 0) m with
    | none => none
    | some r =>
      match lock_unlock_times n fuel (fun j => spurious (j + 1)) (unlock r.m) with
      | none => none
      | some ws => some (unlock r.m :: ws)

/-- The call `lock_shared()` made `n` times in a row by a thread on its own,
starting from the word `m`: the final word and what each call left behind, or
`none` when a call runs out of fuel. -/
def lock_shared_times : Nat → Nat → Nat → Option (Nat × List Returned)
  | 0, _, m => some (m, [])
  | n + 1, fuel, m =>
    match lock_shared fuel m with
    | none => none
    | some r =>
      match lock_shared_times n fuel r.m with
      | none => none
      | some (mf, rs) => some (mf, r :: rs)

/-- The call `unlock_shared()` made `n` times in a row, starting from the word `m`. -/
def unlock_shared_times : Nat → Nat → Nat
  | 0, m => m
  | n + 1, m => unlock_shared_times n (unlock_shared m)

/-! ## Threads and interleavings -/

/-- Where a thread stands between two atomic operations on the word. -/
inductive Pc where
  /-- Outside every call, holding nothing. -/
  | idle
  /-- Inside `lock()`, at the top of the loop after a failed attempt. -/
  | in_lock (sleepy : Sleepyhead)
  /-- Between a successful `lock()` and its `unlock()`. -/
  | exclusive
  /-- Inside `lock_shared()`, at the top of the loop after a failed attempt. -/
  | in_lock_shared (sleepy : Sleepyhead)
  /-- Inside `lock_shared()`, between the fetch-add that returned `prev` and
  the guard compare-exchange. -/
  | guard (prev : Nat) (sleepy : Sleepyhead)
  /-- Between a successful `lock_shared()` and its `unlock_shared()`. -/
  | shared
  deriving DecidableEq, Repr

/-- The atomic operations of the four methods. -/
inductive Action where
  /-- The compare-exchange of `lock()`; the argument says whether it fails spuriously. -/
  | lock_cas (spurious : Bool)
  /-- The store of `unlock()`. -/
  | unlock_store
  /-- The fetch-add of `lock_shared()`. -/
  | shared_fetch_add
  /-- The guard compare-exchange of `lock_shared()`. -/
  | shared_guard_cas
  /-- The fetch-sub of `unlock_shared()`. -/
  | unlock_shared_fetch_sub
  deriving DecidableEq, Repr

/-- Where a thread stands after an iteration of the loop of `lock()`. -/
def after_lock_iter (r : LockIter) : Nat × Pc :=
  if r.acquired then (r.m, Pc.exclusive) else (r.m, Pc.in_lock r.sleepy)

/-- Where a thread stands after the fetch-add of `lock_shared()`: the
backoff branch runs `sleepy.wait()` and goes back to the top of the loop. -/
def after_shared_fetch (r : SharedFetch) (sleepy : Sleepyhead) : Nat × Pc :=
  match r with
  | SharedFetch.acquired m => (m, Pc.shared)
  | SharedFetch.guard m prev => (m, Pc.guard prev sleepy)
  | SharedFetch.backoff m => (m, Pc.in_lock_shared (sleepy.wait).1)

/-- One atomic operation by a thread standing at `pc`, the word being `m`: the
new word and where the thread stands next. A thread outside every call enters
`lock()` or `lock_shared()` with a fresh `Sleepyhead`; `unlock()` is only
called by the holder of a successful `lock()` and `unlock_shared()` only by
the holder of a successful `lock_shared()`. -/
def thread_step (m : Nat) : Pc → Action → Option (Nat × Pc)
  | Pc.idle, Action.lock_cas sp => some (after_lock_iter (lock_iter m sp Sleepyhead.new))
  | Pc.in_lock sleepy, Action.lock_cas sp => some (after_lock_iter (lock_iter m sp sleepy))
  | Pc.exclusive, Action.unlock_store => some (unlock m, Pc.idle)
  | Pc.idle, Action.shared_fetch_add =>
    some (after_shared_fetch (lock_shared_fetch m) Sleepyhead.new)
  | Pc.in_lock_shared sleepy, Action.shared_fetch_add =>
    some (after_shared_fetch (lock_shared_fetch m) sleepy)
  | Pc.guard prev sleepy, Action.shared_guard_cas =>
    some ((lock_shared_guard m prev).2, Pc.in_lock_shared (sleepy.wait).1)
  | Pc.shared, Action.unlock_shared_fetch_sub => some (unlock_shared m, Pc.idle)
  | _, _ => none

/-- The lock word and where each thread stands. -/
structure State where
  /-- The atomic member `m`. -/
  m : Nat
  /-- One entry for each thread. -/
  pcs : List Pc
  deriving DecidableEq, Repr

/-- A freshly constructed mutex (`m{0}`) shared by `threads` threads, all outside every call. -/
def init (threads : Nat) : State := ⟨0, List.replicate threads Pc.idle⟩

/-- Thread `t` performs the atomic operation `a`. -/
def step (s : State) (t : Nat) (a : Action) : Option State :=
  match s.pcs[t]? with
  | none => none
  | some pc =>
    match thread_step s.m pc a with
    | none => none
    | some (m1, pc1) => some ⟨m1, s.pcs.set t pc1⟩

/-- An interleaving: the atomic operations in the order they take effect. -/
def run : State → List (Nat × Action) → Option State
  | s, [] => some s
  | s, (t, a) :: rest =>
    match step s t a with
    | none => none
    | some s1 => run s1 rest

/-- The number of threads between a successful `lock()` and its `unlock()`. -/
def exclusive_holders (s : State) : Nat := s.pcs.count Pc.exclusive

/-- The number of threads between a successful `lock_shared()` and its `unlock_shared()`. -/
def shared_holders (s : State) : Nat := s.pcs.count Pc.shared

/-- A long interleaving of four threads: thread 0 takes the exclusive lock,
threads 1 and 2 each make a first shared attempt, and then, `j` times over,
thread 1 runs its guard and its next fetch-add and thread 2 does the same.
Each guard comes after the other thread's fetch-add, so it finds the word
changed and fails. -/
def long_run : Nat → List (Nat × Action)
  | 0 => [(0, Action.lock_cas false), (1, Action.shared_fetch_add), (2, Action.shared_fetch_add)]
  | j + 1 => long_run j ++
      [(1, Action.shared_guard_cas), (1, Action.shared_fetch_add),
        (2, Action.shared_guard_cas), (2, Action.shared_fetch_add)]

/-- The state the long interleaving leads to after `j` rounds (as long as the
word has not wrapped). -/
def long_run_state (j : Nat) : State :=
  ⟨2 ^ 63 + 2 * j + 2,
    [Pc.exclusive, Pc.guard (2 ^ 63 + 2 * j) ⟨min j 4000⟩,
      Pc.guard (2 ^ 63 + 2 * j + 1) ⟨min j 4000⟩, Pc.idle]⟩

/-- The safety properties of a state: an exclusive holder is alone and the
flag is set; without one the flag is clear and the word counts the shared
holders; a guard compare-exchange can only succeed under an exclusive holder. -/
def Safe (s : State) : Prop :=
  (0 < exclusive_holders s →
    flag_clear s.m = false ∧ exclusive_holders s = 1 ∧ shared_holders s = 0) ∧
  (exclusive_holders s = 0 → flag_clear s.m = true ∧ s.m = shared_holders s) ∧
  (∀ (t prev : Nat) (sleepy : Sleepyhead), s.pcs[t]? = some (Pc.guard prev sleepy) →
    (lock_shared_guard s.m prev).1 = true → 0 < exclusive_holders s)

/-- The invariant behind `Safe`, for a state reached in `n` steps: without an
exclusive holder the word is the number of shared holders and at most `n`;
with one, the holder is alone, the word lies in `[2 ^ 63, 2 ^ 63 + n]`; every
value captured by a pending guard lies in `[2 ^ 63, 2 ^ 63 + n)`. -/
def Inv (n : Nat) (s : State) : Prop :=
  (exclusive_holders s = 0 → s.m = shared_holders s ∧ s.m ≤ n) ∧
  (exclusive_holders s ≠ 0 →
    exclusive_holders s = 1 ∧ shared_holders s = 0 ∧ 2 ^ 63 ≤ s.m ∧ s.m ≤ 2 ^ 63 + n) ∧
  (∀ pc ∈ s.pcs, ∀ (prev : Nat) (sleepy : Sleepyhead),
    pc = Pc.guard prev sleepy → 2 ^ 63 ≤ prev ∧ prev < 2 ^ 63 + n)

/-! ## Constants and bit tests -/

theorem int_mod_eq : int_mod = 2 ^ 64 := by decide

theorem biggest_bit_s_mask_eq : biggest_bit_s_mask = 2 ^ 63 := by decide

theorem half_max_value_eq : half_max_value = 2 ^ 62 := by decide

theorem flag_clear_iff (w : Nat) : flag_clear w = true ↔ w % 2 ^ 64 < 2 ^ 63 := by
  unfold flag_clear
  rw [biggest_bit_s_mask_eq, Nat.and_two_pow, Nat.toNat_testBit]
  simp only [beq_iff_eq]
  omega

theorem flag_clear_of_lt {w : Nat} (h : w < 2 ^ 63) : flag_clear w = true := by
  rw [flag_clear_iff]; omega

theorem flag_set_of_ge {w : Nat} (h1 : 2 ^ 63 ≤ w) (h2 : w < 2 ^ 64) :
    flag_clear w = false := by
  cases h : flag_clear w
  · rfl
  · rw [flag_clear_iff] at h; omega

theorem ge_of_flag_set {w : Nat} (h : flag_clear w = false) : 2 ^ 63 ≤ w := by
  by_contra hlt
  have := flag_clear_of_lt (w := w) (by omega)
  simp [h] at this

/-! ## Sleepyhead -/

theorem waits_spin_count (k : Nat) :
    (Sleepyhead.waits k Sleepyhead.new).spin_count = min k Sleepyhead.max_spin := by
  induction k with
  | zero => rfl
  | succ k ih =>
    have hm : Sleepyhead.max_spin = 4000 := rfl
    rw [hm] at ih ⊢
    simp only [Sleepyhead.waits, Sleepyhead.wait, hm]
    split
    · simp only []
      omega
    · simp only []
      omega

/-- C7: a fresh `Sleepyhead` has counter 0; after `k` calls of `wait()` the
counter is `min k 4000`; the next call takes the pause path and adds one to the
counter when `k < 4000`, and takes the sleep path and leaves the object as it
is otherwise; the counter never exceeds 4000. -/
theorem sleepyhead_escalation (k : Nat) :
    Sleepyhead.new.spin_count = 0 ∧
    Sleepyhead.max_spin = 4000 ∧
    (Sleepyhead.waits k Sleepyhead.new).spin_count = min k 4000 ∧
    (Sleepyhead.waits k Sleepyhead.new).wait =
      (if k < 4000 then
        (⟨(Sleepyhead.waits k Sleepyhead.new).spin_count + 1⟩, WaitPath.pause)
      else (Sleepyhead.waits k Sleepyhead.new, WaitPath.sleep)) ∧
    (Sleepyhead.waits k Sleepyhead.new).spin_count ≤ 4000 := by
  have h := waits_spin_count k
  simp only [Sleepyhead.max_spin] at h
  refine ⟨rfl, rfl, h, ?_, by omega⟩
  simp only [Sleepyhead.wait, h, Sleepyhead.max_spin]
  by_cases hk : k < 4000
  · have h1 : min k 4000 < 4000 := by omega
    have h2 : (min k 4000 + 1) % 2 ^ 32 = min k 4000 + 1 := by omega
    rw [if_pos hk, if_pos h1, h2]
  · have h1 : ¬ min k 4000 < 4000 := by omega
    rw [if_neg hk, if_neg h1]

/-! ## The exclusive lock -/

theorem lock_iter_acquired (w : Nat) (spurious : Bool) (sleepy : Sleepyhead)
    (h : (lock_iter w spurious sleepy).acquired = true) :
    w = 0 ∧ spurious = false ∧ lock_iter w spurious sleepy = ⟨true, biggest_bit_s_mask, sleepy, 0⟩ := by
  unfold lock_iter compare_exchange_weak at h ⊢
  by_cases hc : w = 0 ∧ spurious = false
  · simp [hc]
  · simp [hc] at h

theorem lock_iter_failed (w : Nat) (spurious : Bool) (sleepy : Sleepyhead)
    (h : w ≠ 0 ∨ spurious = true) :
    lock_iter w spurious sleepy = ⟨false, w, (sleepy.wait).1, 1⟩ := by
  unfold lock_iter compare_exchange_weak
  have hc : ¬ (w = 0 ∧ spurious = false) := by
    rintro ⟨h1, h2⟩
    rcases h with h | h
    · exact h h1
    · simp [h2] at h
  simp [hc]

theorem lock_iter_success (sleepy : Sleepyhead) :
    lock_iter 0 false sleepy = ⟨true, biggest_bit_s_mask, sleepy, 0⟩ := by
  unfold lock_iter compare_exchange_weak
  simp

theorem lock_loop_nonzero (fuel : Nat) (spurious : Nat → Bool) (w : Nat) (hw : w ≠ 0)
    (sleepy : Sleepyhead) (its ws : Nat) :
    lock_loop fuel spurious w sleepy its ws = none := by
  induction fuel generalizing spurious sleepy its ws with
  | zero => rfl
  | succ fuel ih =>
    simp only [lock_loop, lock_iter_failed w (spurious 0) sleepy (Or.inl hw)]
    exact ih _ _ _ _

theorem lock_loop_returns (k : Nat) :
    ∀ (fuel : Nat) (spurious : Nat → Bool) (sleepy : Sleepyhead) (its ws : Nat),
      k < fuel → spurious k = false →
      ∃ r, lock_loop fuel spurious 0 sleepy its ws = some r ∧ r.m = biggest_bit_s_mask ∧
        r.iterations ≤ its + k + 1 ∧ r.iterations + ws = its + r.waits + 1 := by
  induction k with
  | zero =>
    intro fuel spurious sleepy its ws hf hs
    obtain ⟨f, rfl⟩ : ∃ f, fuel = f + 1 := ⟨fuel - 1, by omega⟩
    refine ⟨⟨biggest_bit_s_mask, its + 1, ws⟩, ?_, rfl, by simp, by simp; omega⟩
    simp [lock_loop, hs, lock_iter_success]
  | succ k ih =>
    intro fuel spurious sleepy its ws hf hs
    obtain ⟨f, rfl⟩ : ∃ f, fuel = f + 1 := ⟨fuel - 1, by omega⟩
    cases h0 : spurious 0 with
    | false =>
      refine ⟨⟨biggest_bit_s_mask, its + 1, ws⟩, ?_, rfl, by simp, by simp; omega⟩
      simp [lock_loop, h0, lock_iter_success]
    | true =>
      obtain ⟨r, hr, hm, hi, hw⟩ :=
        ih f (fun i => spurious (i + 1)) (sleepy.wait).1 (its + 1) (ws + 1) (by omega) hs
      refine ⟨r, ?_, hm, by omega, ?_⟩
      · simp only [lock_loop, h0, lock_iter_failed 0 true sleepy (Or.inr rfl)]
        simpa using hr
      · omega

/-- C5: an iteration of the loop of `lock()` that acquires started from the
word 0 and leaves exactly the exclusive flag (`2 ^ 63`, reader count 0) without
calling `wait()`; from a word other than 0 the iteration fails, leaves the word
as it is, calls `wait()` once and goes round again, so that `lock()` on its own
returns for no amount of fuel, and among threads no compare-exchange of `lock()`
makes its thread a holder while the word is non-zero. -/
theorem lock_attempt (w : Nat) (spurious : Bool) (sleepy : Sleepyhead) :
    ((lock_iter w spurious sleepy).acquired = true →
      w = 0 ∧ (lock_iter w spurious sleepy).m = biggest_bit_s_mask ∧
      biggest_bit_s_mask = 2 ^ 63 ∧ reader_count (lock_iter w spurious sleepy).m = 0 ∧
      (lock_iter w spurious sleepy).waits = 0) ∧
    (w ≠ 0 →
      lock_iter w spurious sleepy = ⟨false, w, (sleepy.wait).1, 1⟩ ∧
      (∀ fuel oracle, lock fuel oracle w = none) ∧
      (∀ pc m1 pc1, thread_step w pc (Action.lock_cas spurious) = some (m1, pc1) →
        m1 = w ∧ pc1 ≠ Pc.exclusive)) := by
  constructor
  · intro h
    obtain ⟨h0, -, he⟩ := lock_iter_acquired w spurious sleepy h
    rw [he]
    exact ⟨h0, rfl, by decide, (by decide : reader_count biggest_bit_s_mask = 0), rfl⟩
  · intro hw
    refine ⟨lock_iter_failed w spurious sleepy (Or.inl hw), ?_, ?_⟩
    · intro fuel oracle
      exact lock_loop_nonzero fuel oracle w hw _ _ _
    · intro pc m1 pc1 h
      cases pc <;> simp [thread_step, after_lock_iter, lock_iter_failed w spurious _ (Or.inl hw)] at h
      all_goals
        obtain ⟨rfl, rfl⟩ := h
        simp

/-- Witness of C5: from the word 0 an attempt that does not fail spuriously
acquires, and from the word 5 an attempt fails. -/
theorem lock_attempt_witness :
    (lock_iter 0 false Sleepyhead.new).acquired = true ∧
    (5 : Nat) ≠ 0 ∧
    lock_iter 5 false Sleepyhead.new = ⟨false, 5, ⟨1⟩, 1⟩ :=
  ⟨by decide, by decide, ((lock_attempt 5 false Sleepyhead.new).2 (by decide)).1⟩

theorem lock_unlock_times_zero (n : Nat) :
    ∀ (fuel k : Nat) (spurious : Nat → Nat → Bool),
      (∀ j, ∃ i, i ≤ k ∧ spurious j i = false) → k < fuel →
      lock_unlock_times n fuel spurious 0 = some (List.replicate n 0) := by
  induction n with
  | zero => intros; rfl
  | succ n ih =>
    intro fuel k spurious hs hf
    obtain ⟨i, hi, hsi⟩ := hs 0
    obtain ⟨r, hr, hm, -, -⟩ :=
      lock_loop_returns i fuel (spurious 0) Sleepyhead.new 0 0 (by omega) hsi
    have hl : lock fuel (spurious 0) 0 = some r := hr
    have hu : unlock r.m = 0 := rfl
    simp only [lock_unlock_times, hl, hu]
    rw [ih fuel k (fun j => spurious (j + 1)) (fun j => hs (j + 1)) hf]
    rfl

/-- C3: from the unlocked word 0, with no other thread acting, `lock()` returns
(as soon as its compare-exchange does not fail spuriously, here within `k + 1`
attempts) with the word equal to the exclusive flag `2 ^ 63`, the following
`unlock()` leaves 0, and `lock(); unlock();` repeated `n` times leaves 0 after
every repetition. -/
theorem lock_unlock_round_trip (n fuel k : Nat) (spurious : Nat → Nat → Bool)
    (hs : ∀ j, ∃ i, i ≤ k ∧ spurious j i = false) (hf : k < fuel) :
    (∃ r, lock fuel (spurious 0) 0 = some r ∧ r.m = biggest_bit_s_mask ∧
      biggest_bit_s_mask = 2 ^ 63 ∧ r.iterations ≤ k + 1 ∧ unlock r.m = 0) ∧
    lock_unlock_times n fuel spurious 0 = some (List.replicate n 0) := by
  refine ⟨?_, lock_unlock_times_zero n fuel k spurious hs hf⟩
  obtain ⟨i, hi, hsi⟩ := hs 0
  obtain ⟨r, hr, hm, hit, -⟩ :=
    lock_loop_returns i fuel (spurious 0) Sleepyhead.new 0 0 (by omega) hsi
  exact ⟨r, hr, hm, by decide, by omega, rfl⟩

/-- Witness of C3: three round trips with a compare-exchange that never fails
spuriously and fuel for one attempt. -/
theorem lock_unlock_round_trip_witness :
    (∃ r, lock 1 (fun _ => false) 0 = some r ∧ r.m = biggest_bit_s_mask ∧
      biggest_bit_s_mask = 2 ^ 63 ∧ r.iterations ≤ 0 + 1 ∧ unlock r.m = 0) ∧
    lock_unlock_times 3 1 (fun _ _ => false) 0 = some [0, 0, 0] :=
  lock_unlock_round_trip 3 1 0 (fun _ _ => false) (fun _ => ⟨0, le_refl 0, rfl⟩) (by decide)

theorem lock_shared_fetch_clear {w : Nat} (h : w < 2 ^ 63) :
    lock_shared_fetch w = SharedFetch.acquired (w + 1) := by
  have hm : (w + 1) % int_mod = w + 1 := by rw [int_mod_eq]; omega
  simp [lock_shared_fetch, fetch_add, flag_clear_of_lt h, hm]
theorem lock_shared_fetch_set {w : Nat} (h : flag_clear w = false) :
    lock_shared_fetch w = SharedFetch.guard ((w + 1) % int_mod) w := by
  have hge := ge_of_flag_set h
  have hh : half_max_value < w := by rw [half_max_value_eq]; omega
  simp [lock_shared_fetch, fetch_add, h, hh]
theorem lock_shared_guard_hit (prev : Nat) :
    lock_shared_guard ((prev + 1) % int_mod) prev = (true, biggest_bit_s_mask) := by
  simp [lock_shared_guard, compare_exchange_strong]
theorem lock_shared_guard_miss {m prev : Nat} (h : m ≠ (prev + 1) % int_mod) :
    lock_shared_guard m prev = (false, m) := by
  simp [lock_shared_guard, compare_exchange_strong, h]
theorem lock_shared_returns {w : Nat} (h : w < 2 ^ 63) (fuel : Nat) :
    lock_shared (fuel + 1) w = some ⟨w + 1, 1, 0⟩ := by
  simp [lock_shared, lock_shared_loop, lock_shared_iter, lock_shared_fetch_clear h]
theorem lock_shared_times_eq (n : Nat) :
    ∀ (fuel w : Nat), w + n ≤ 2 ^ 63 →
      lock_shared_times n (fuel + 1) w =
        some (w + n, (List.range n).map (fun i => (⟨w + i + 1, 1, 0⟩ : Returned))) := by
  induction n with
  | zero => intros; rfl
  | succ n ih =>
    intro fuel w h
    have hw : w < 2 ^ 63 := by omega
    have hstep : lock_shared_times (n + 1) (fuel + 1) w =
        match lock_shared_times n (fuel + 1) (w + 1) with
        | none => none
        | some (mf, rs) => some (mf, (⟨w + 1, 1, 0⟩ : Returned) :: rs) := by
      simp only [lock_shared_times, lock_shared_returns hw fuel]
    rw [hstep, ih fuel (w + 1) (by omega)]
    simp only [List.range_succ_eq_map, List.map_cons, List.map_map]
    have e1 : w + 1 + n = w + (n + 1) := by omega
    have e2 : ((fun i => (⟨w + 1 + i + 1, 1, 0⟩ : Returned)) : Nat → Returned) =
        (fun i => (⟨w + i + 1, 1, 0⟩ : Returned)) ∘ Nat.succ := by
      funext i
      simp only [Function.comp, Nat.succ_eq_add_one]
      congr 1
      omega
    rw [e1, e2]
theorem unlock_shared_eq {w : Nat} (h1 : 1 ≤ w) (h2 : w < 2 ^ 64) : unlock_shared w = w - 1 := by
  have e : int_mod = 18446744073709551616 := by decide
  unfold unlock_shared fetch_sub
  simp only [e]
  omega

theorem unlock_shared_times_eq (n : Nat) :
    ∀ w, n ≤ w → w < 2 ^ 64 → unlock_shared_times n w = w - n := by
  induction n with
  | zero => intros; rfl
  | succ n ih =>
    intro w h1 h2
    have hu : unlock_shared w = w - 1 := unlock_shared_eq (by omega) h2
    have hlt : w - 1 < 2 ^ 64 := lt_of_le_of_lt (Nat.sub_le w 1) h2
    show unlock_shared_times n (unlock_shared w) = w - (n + 1)
    rw [hu, ih (w - 1) (by omega) hlt]
    omega
/-- C4: from the unlocked word 0, for `n` below `2 ^ 63`, `n` calls of
`lock_shared()` return, each after one iteration (a single fetch-add) and no
call of `wait()`, the `i`-th leaving the word at `i`, so that the word is `n`
after them; `n` calls of `unlock_shared()` then leave the word at 0. -/
theorem lock_shared_round_trip (n fuel : Nat) (hn : n < 2 ^ 63) (hf : 0 < fuel) :
    lock_shared_times n fuel 0 =
      some (n, (List.range n).map (fun i => (⟨i + 1, 1, 0⟩ : Returned))) ∧
    unlock_shared_times n n = 0 := by
  obtain ⟨f, rfl⟩ : ∃ f, fuel = f + 1 := ⟨fuel - 1, by omega⟩
  constructor
  · have h := lock_shared_times_eq n f 0 (by omega)
    simpa using h
  · rw [unlock_shared_times_eq n n (le_refl n) (by omega)]
    omega

/-- Witness of C4: the case `n = 2` of the specification, with fuel for one iteration. -/
theorem lock_shared_round_trip_witness :
    lock_shared_times 2 1 0 = some (2, [⟨1, 1, 0⟩, ⟨2, 1, 0⟩]) ∧
    unlock_shared_times 2 2 = 0 :=
  lock_shared_round_trip 2 1 (by norm_num) (by norm_num)

/-- C8, as stated, fails at the word `2 ^ 63` (flag set, reader count 0): alone,
the failed iteration leaves the bare flag `2 ^ 63`, not `2 ^ 63 + 1`. -/
theorem failed_shared_attempt_counterexample :
    flag_clear (2 ^ 63) = false ∧
    (lock_shared_iter (2 ^ 63) Sleepyhead.new).acquired = false ∧
    (lock_shared_iter (2 ^ 63) Sleepyhead.new).m = 2 ^ 63 ∧
    (lock_shared_iter (2 ^ 63) Sleepyhead.new).m ≠ 2 ^ 63 + 1 := by
  decide

/-- C8, amended: for a word `w` with the flag set that exceeds the guard
threshold `half_max_value`, the fetch-add of the failed iteration leaves
`w + 1` modulo `2 ^ 64` and hands over to the guard; with no other thread acting
the guard compare-exchange succeeds and the iteration ends, after one call of
`wait()`, with the word equal to the bare flag; the guard leaves any other word
it finds as it is. -/
theorem failed_shared_attempt (w : Nat) (sleepy : Sleepyhead)
    (hflag : flag_clear w = false) (hthr : w > half_max_value) :
    lock_shared_fetch w = SharedFetch.guard ((w + 1) % int_mod) w ∧
    lock_shared_iter w sleepy = ⟨false, biggest_bit_s_mask, (sleepy.wait).1, some true, 1⟩ ∧
    (∀ m1, m1 ≠ (w + 1) % int_mod → lock_shared_guard m1 w = (false, m1)) := by
  have hf : lock_shared_fetch w = SharedFetch.guard ((w + 1) % int_mod) w := by
    have hlt : half_max_value < w := hthr
    simp [lock_shared_fetch, fetch_add, hflag, hlt]
  refine ⟨hf, ?_, fun m1 h => lock_shared_guard_miss h⟩
  simp [lock_shared_iter, hf, lock_shared_guard_hit]

/-- Witness of C8 amended: the word `2 ^ 63 + 7`. -/
theorem failed_shared_attempt_witness :
    lock_shared_fetch (2 ^ 63 + 7) = SharedFetch.guard ((2 ^ 63 + 7 + 1) % int_mod) (2 ^ 63 + 7) ∧
    lock_shared_iter (2 ^ 63 + 7) Sleepyhead.new =
      ⟨false, biggest_bit_s_mask, (Sleepyhead.new.wait).1, some true, 1⟩ ∧
    (∀ m1, m1 ≠ (2 ^ 63 + 7 + 1) % int_mod → lock_shared_guard m1 (2 ^ 63 + 7) = (false, m1)) :=
  failed_shared_attempt (2 ^ 63 + 7) Sleepyhead.new (by decide) (by decide)

/-- C9: a value `prev` with the exclusive flag set exceeds `half_max_value`
(`2 ^ 62`), so the fetch-add that returns it always hands over to the guard,
which is the compare-exchange from `prev + 1` modulo `2 ^ 64` to the bare flag;
the fetch-add of no word at all leads straight to `wait()`. -/
theorem guard_threshold_never_filters (prev : Nat) :
    (flag_clear prev = false →
      prev > half_max_value ∧ half_max_value = 2 ^ 62 ∧
      lock_shared_fetch prev = SharedFetch.guard ((prev + 1) % 2 ^ 64) prev ∧
      (∀ m sleepy, lock_shared_iter prev sleepy =
        ⟨false, (lock_shared_guard ((prev + 1) % 2 ^ 64) prev).2, (sleepy.wait).1,
          some (lock_shared_guard ((prev + 1) % 2 ^ 64) prev).1, 1⟩ ∧
        lock_shared_guard m prev =
          ((compare_exchange_strong m ((prev + 1) % 2 ^ 64) (2 ^ 63)).1,
            (compare_exchange_strong m ((prev + 1) % 2 ^ 64) (2 ^ 63)).2.1))) ∧
    (∀ m1, lock_shared_fetch prev ≠ SharedFetch.backoff m1) := by
  constructor
  · intro h
    have hge := ge_of_flag_set h
    have hf := lock_shared_fetch_set h
    rw [int_mod_eq] at hf
    refine ⟨by rw [half_max_value_eq]; omega, half_max_value_eq, hf, ?_⟩
    intro m sleepy
    exact ⟨by simp [lock_shared_iter, hf], rfl⟩
  · intro m1
    cases h : flag_clear prev
    · rw [lock_shared_fetch_set h]; simp
    · simp [lock_shared_fetch, fetch_add, h]

/-- Witness of C9: the bare flag, reader count 0. -/
theorem guard_threshold_never_filters_witness :
    flag_clear (2 ^ 63) = false ∧ 2 ^ 63 > half_max_value ∧
    lock_shared_fetch (2 ^ 63) = SharedFetch.guard ((2 ^ 63 + 1) % 2 ^ 64) (2 ^ 63) :=
  ⟨by decide, ((guard_threshold_never_filters (2 ^ 63)).1 (by decide)).1,
    ((guard_threshold_never_filters (2 ^ 63)).1 (by decide)).2.2.1⟩

/-! ## Interleavings: the invariant of short runs -/

theorem step_some {s : State} {t : Nat} {a : Action} {s1 : State} (h : step s t a = some s1) :
    ∃ pc m1 pc1, s.pcs[t]? = some pc ∧ thread_step s.m pc a = some (m1, pc1) ∧
      s1 = ⟨m1, s.pcs.set t pc1⟩ := by
  unfold step at h
  cases hpc : s.pcs[t]? with
  | none => simp [hpc] at h
  | some pc =>
    cases hts : thread_step s.m pc a with
    | none => simp [hpc, hts] at h
    | some r =>
      obtain ⟨m1, pc1⟩ := r
      simp only [hpc, hts, Option.some.injEq] at h
      exact ⟨pc, m1, pc1, rfl, hts, h.symm⟩

theorem count_set_eq (l : List Pc) (t : Nat) (pc pc1 q : Pc) (h : l[t]? = some pc) :
    (l.set t pc1).count q + (if pc = q then 1 else 0) =
      l.count q + (if pc1 = q then 1 else 0) := by
  obtain ⟨ht, hget⟩ := List.getElem?_eq_some_iff.mp h
  rw [List.count_set _ _ _ _ ht, hget]
  simp only [beq_iff_eq]
  by_cases hq : pc = q
  · have hpos : 0 < l.count q := by
      rw [List.count_pos_iff]
      rw [← hq, ← hget]
      exact List.getElem_mem ht
    simp only [hq, if_true]
    omega
  · simp only [hq, if_false]
    omega

theorem mem_of_getElem?_some {l : List Pc} {t : Nat} {pc : Pc} (h : l[t]? = some pc) :
    pc ∈ l := by
  obtain ⟨ht, hget⟩ := List.getElem?_eq_some_iff.mp h
  rw [← hget]
  exact List.getElem_mem ht

theorem inv_bound {n : Nat} {s : State} (hinv : Inv n s) : s.m ≤ 2 ^ 63 + n := by
  obtain ⟨h0, h1, -⟩ := hinv
  by_cases hE : exclusive_holders s = 0
  · have := (h0 hE).2
    omega
  · exact (h1 hE).2.2.2

theorem inv_update {n : Nat} {s : State} {t : Nat} {pc1 : Pc} {m1 : Nat}
    (hinv : Inv n s)
    (hg : ∀ (prev : Nat) (sleepy : Sleepyhead),
      pc1 = Pc.guard prev sleepy → 2 ^ 63 ≤ prev ∧ prev < 2 ^ 63 + (n + 1))
    (h0 : (s.pcs.set t pc1).count Pc.exclusive = 0 →
      m1 = (s.pcs.set t pc1).count Pc.shared ∧ m1 ≤ n + 1)
    (h1 : (s.pcs.set t pc1).count Pc.exclusive ≠ 0 →
      (s.pcs.set t pc1).count Pc.exclusive = 1 ∧ (s.pcs.set t pc1).count Pc.shared = 0 ∧
        2 ^ 63 ≤ m1 ∧ m1 ≤ 2 ^ 63 + (n + 1)) :
    Inv (n + 1) ⟨m1, s.pcs.set t pc1⟩ := by
  refine ⟨h0, h1, ?_⟩
  intro q hq prev sleepy hqe
  rcases List.mem_or_eq_of_mem_set hq with hmem | heq
  · have := hinv.2.2 q hmem prev sleepy hqe
    omega
  · exact hg prev sleepy (heq ▸ hqe)

theorem inv_lock_cas {n : Nat} {s : State} {t : Nat} {pc : Pc} (sp : Bool) (sleepy : Sleepyhead)
    (hinv : Inv n s) (hpc : s.pcs[t]? = some pc) (hne : pc ≠ Pc.exclusive)
    (hns : pc ≠ Pc.shared) :
    Inv (n + 1) ⟨(after_lock_iter (lock_iter s.m sp sleepy)).1,
      s.pcs.set t (after_lock_iter (lock_iter s.m sp sleepy)).2⟩ := by
  have hE := count_set_eq s.pcs t pc
  have h0 := hinv.1
  have h1 := hinv.2.1
  unfold exclusive_holders shared_holders at h0 h1
  by_cases hc : s.m = 0 ∧ sp = false
  · obtain ⟨hm, rfl⟩ := hc
    rw [hm, lock_iter_success]
    have hE1 := hE Pc.exclusive Pc.exclusive hpc
    have hS1 := hE Pc.exclusive Pc.shared hpc
    simp only [hne, hns, if_false, if_true, reduceCtorEq] at hE1 hS1
    have hmask : biggest_bit_s_mask = 2 ^ 63 := biggest_bit_s_mask_eq
    apply inv_update hinv
    · intro prev sl h
      simp [after_lock_iter] at h
    · intro h
      simp only [after_lock_iter, if_true] at h
      omega
    · intro _
      simp only [after_lock_iter, if_true]
      omega
  · have hfail : lock_iter s.m sp sleepy = ⟨false, s.m, (sleepy.wait).1, 1⟩ := by
      apply lock_iter_failed
      by_cases hm : s.m = 0
      · right
        cases sp
        · exact absurd ⟨hm, rfl⟩ hc
        · rfl
      · exact Or.inl hm
    rw [hfail]
    have hE1 := hE (Pc.in_lock (sleepy.wait).1) Pc.exclusive hpc
    have hS1 := hE (Pc.in_lock (sleepy.wait).1) Pc.shared hpc
    simp only [hne, hns, if_false, reduceCtorEq] at hE1 hS1
    apply inv_update hinv
    · intro prev sl h
      simp [after_lock_iter] at h
    · intro h
      simp only [after_lock_iter] at h ⊢
      simp only [Bool.false_eq_true, if_false] at h ⊢
      omega
    · intro h
      simp only [after_lock_iter] at h ⊢
      simp only [Bool.false_eq_true, if_false] at h ⊢
      omega

theorem inv_shared_fetch {n : Nat} {s : State} {t : Nat} {pc : Pc} (sleepy : Sleepyhead)
    (hinv : Inv n s) (hn : n + 1 < 2 ^ 63) (hpc : s.pcs[t]? = some pc)
    (hne : pc ≠ Pc.exclusive) (hns : pc ≠ Pc.shared) :
    Inv (n + 1) ⟨(after_shared_fetch (lock_shared_fetch s.m) sleepy).1,
      s.pcs.set t (after_shared_fetch (lock_shared_fetch s.m) sleepy).2⟩ := by
  have hE := count_set_eq s.pcs t pc
  have h0 := hinv.1
  have h1 := hinv.2.1
  have hb := inv_bound hinv
  unfold exclusive_holders shared_holders at h0 h1
  cases hflag : flag_clear s.m with
  | true =>
    have hlt : s.m < 2 ^ 63 := by
      have := (flag_clear_iff s.m).mp hflag
      omega
    rw [lock_shared_fetch_clear hlt]
    have hE1 := hE Pc.shared Pc.exclusive hpc
    have hS1 := hE Pc.shared Pc.shared hpc
    simp only [hne, hns, if_false, if_true, reduceCtorEq] at hE1 hS1
    apply inv_update hinv
    · intro prev sl h
      simp [after_shared_fetch] at h
    · intro h
      simp only [after_shared_fetch] at h ⊢
      omega
    · intro h
      simp only [after_shared_fetch] at h ⊢
      omega
  | false =>
    have hge := ge_of_flag_set hflag
    rw [lock_shared_fetch_set hflag]
    have hmod : (s.m + 1) % int_mod = s.m + 1 := by
      rw [int_mod_eq]
      omega
    rw [hmod]
    have hE1 := hE (Pc.guard s.m sleepy) Pc.exclusive hpc
    have hS1 := hE (Pc.guard s.m sleepy) Pc.shared hpc
    simp only [hne, hns, if_false, reduceCtorEq] at hE1 hS1
    apply inv_update hinv
    · intro prev sl h
      simp only [after_shared_fetch, Pc.guard.injEq] at h
      omega
    · intro h
      simp only [after_shared_fetch] at h ⊢
      omega
    · intro h
      simp only [after_shared_fetch] at h ⊢
      omega

theorem inv_guard_cas {n : Nat} {s : State} {t : Nat} (prev : Nat) (sleepy : Sleepyhead)
    (hinv : Inv n s) (hn : n + 1 < 2 ^ 63) (hpc : s.pcs[t]? = some (Pc.guard prev sleepy)) :
    Inv (n + 1) ⟨(lock_shared_guard s.m prev).2,
      s.pcs.set t (Pc.in_lock_shared (sleepy.wait).1)⟩ := by
  have hE := count_set_eq s.pcs t (Pc.guard prev sleepy) (Pc.in_lock_shared (sleepy.wait).1)
  have h0 := hinv.1
  have h1 := hinv.2.1
  have hp := hinv.2.2 _ (mem_of_getElem?_some hpc) prev sleepy rfl
  unfold exclusive_holders shared_holders at h0 h1
  have hE1 := hE Pc.exclusive hpc
  have hS1 := hE Pc.shared hpc
  simp only [if_false, reduceCtorEq] at hE1 hS1
  have hmod : (prev + 1) % int_mod = prev + 1 := by
    rw [int_mod_eq]
    omega
  have hmask : biggest_bit_s_mask = 2 ^ 63 := biggest_bit_s_mask_eq
  by_cases hhit : s.m = (prev + 1) % int_mod
  · have hg : lock_shared_guard s.m prev = (true, biggest_bit_s_mask) := by
      rw [hhit]
      exact lock_shared_guard_hit prev
    rw [hg]
    apply inv_update hinv
    · intro p sl h
      simp at h
    · intro h
      simp only at h ⊢
      omega
    · intro h
      simp only at h ⊢
      omega
  · rw [lock_shared_guard_miss hhit]
    apply inv_update hinv
    · intro p sl h
      simp at h
    · intro h
      simp only at h ⊢
      omega
    · intro h
      simp only at h ⊢
      omega

theorem inv_unlock {n : Nat} {s : State} {t : Nat}
    (hinv : Inv n s) (hpc : s.pcs[t]? = some Pc.exclusive) :
    Inv (n + 1) ⟨unlock s.m, s.pcs.set t Pc.idle⟩ := by
  have hE := count_set_eq s.pcs t Pc.exclusive Pc.idle
  have h0 := hinv.1
  have h1 := hinv.2.1
  unfold exclusive_holders shared_holders at h0 h1
  have hE1 := hE Pc.exclusive hpc
  have hS1 := hE Pc.shared hpc
  simp only [if_false, if_true, reduceCtorEq] at hE1 hS1
  have hu : unlock s.m = 0 := rfl
  rw [hu]
  apply inv_update hinv
  · intro p sl h
    simp at h
  · intro h
    omega
  · intro h
    omega

theorem inv_unlock_shared {n : Nat} {s : State} {t : Nat}
    (hinv : Inv n s) (hn : n + 1 < 2 ^ 63) (hpc : s.pcs[t]? = some Pc.shared) :
    Inv (n + 1) ⟨unlock_shared s.m, s.pcs.set t Pc.idle⟩ := by
  have hE := count_set_eq s.pcs t Pc.shared Pc.idle
  have h0 := hinv.1
  have h1 := hinv.2.1
  unfold exclusive_holders shared_holders at h0 h1
  have hE1 := hE Pc.exclusive hpc
  have hS1 := hE Pc.shared hpc
  simp only [if_false, if_true, reduceCtorEq] at hE1 hS1
  have hu : unlock_shared s.m = s.m - 1 := unlock_shared_eq (by omega) (by omega)
  rw [hu]
  apply inv_update hinv
  · intro p sl h
    simp at h
  · intro h
    omega
  · intro h
    omega

theorem inv_step {n : Nat} {s s1 : State} {t : Nat} {a : Action}
    (hinv : Inv n s) (hn : n + 1 < 2 ^ 63) (h : step s t a = some s1) : Inv (n + 1) s1 := by
  obtain ⟨pc, m1, pc1, hpc, hts, rfl⟩ := step_some h
  cases pc <;> cases a <;> simp only [thread_step, Option.some.injEq, reduceCtorEq] at hts
  all_goals
    have hm : m1 = _ := (congrArg Prod.fst hts).symm
    have hp : pc1 = _ := (congrArg Prod.snd hts).symm
    subst hm hp
  · exact inv_lock_cas _ _ hinv hpc (by simp) (by simp)
  · exact inv_shared_fetch _ hinv hn hpc (by simp) (by simp)
  · exact inv_lock_cas _ _ hinv hpc (by simp) (by simp)
  · exact inv_unlock hinv hpc
  · exact inv_shared_fetch _ hinv hn hpc (by simp) (by simp)
  · exact inv_guard_cas _ _ hinv hn hpc
  · exact inv_unlock_shared hinv hn hpc

theorem inv_init (threads : Nat) : Inv 0 (init threads) := by
  refine ⟨?_, ?_, ?_⟩
  · intro _
    simp [init, shared_holders, List.count_replicate]
  · intro h
    simp [init, exclusive_holders, List.count_replicate] at h
  · intro pc hpc prev sleepy he
    simp only [init, List.mem_replicate] at hpc
    rw [hpc.2] at he
    simp at he

theorem inv_run (tr : List (Nat × Action)) :
    ∀ (k : Nat) (s s1 : State), Inv k s → k + tr.length < 2 ^ 63 → run s tr = some s1 →
      Inv (k + tr.length) s1 := by
  induction tr with
  | nil =>
    intro k s s1 hinv _ h
    simp only [run, Option.some.injEq] at h
    subst h
    exact hinv
  | cons x rest ih =>
    intro k s s1 hinv hlen h
    obtain ⟨t, a⟩ := x
    simp only [List.length_cons] at hlen ⊢
    cases hs : step s t a with
    | none => simp [run, hs] at h
    | some s2 =>
      simp only [run, hs] at h
      have h2 := inv_step hinv (by omega) hs
      have h3 := ih (k + 1) s2 s1 h2 (by omega) h
      have e : k + 1 + rest.length = k + (rest.length + 1) := by omega
      rw [e] at h3
      exact h3

theorem safe_of_inv {n : Nat} {s : State} (hinv : Inv n s) (hn : n < 2 ^ 63) : Safe s := by
  obtain ⟨h0, h1, h2⟩ := hinv
  refine ⟨?_, ?_, ?_⟩
  · intro hE
    obtain ⟨a, b, c, d⟩ := h1 (by omega)
    exact ⟨flag_set_of_ge c (by omega), a, b⟩
  · intro hE
    obtain ⟨a, b⟩ := h0 hE
    exact ⟨flag_clear_of_lt (by omega), a⟩
  · intro t prev sleepy hpc hg
    obtain ⟨a, b⟩ := h2 _ (mem_of_getElem?_some hpc) prev sleepy rfl
    by_contra hE
    obtain ⟨c, d⟩ := h0 (by omega)
    have hne : s.m ≠ (prev + 1) % int_mod := by
      rw [int_mod_eq]
      omega
    rw [lock_shared_guard_miss hne] at hg
    simp at hg

/-- C10: every state reached from a fresh mutex by an interleaving of fewer
than `2 ^ 62` atomic operations, the threads keeping to the call contract, is
safe: an exclusive holder is alone, with the flag set and no shared holder;
without an exclusive holder the flag is clear and the word is the number of
shared holders; and a guard compare-exchange that would succeed there finds an
exclusive holder. -/
theorem safety_within_realistic_run (threads : Nat) (tr : List (Nat × Action)) (s : State)
    (hrun : run (init threads) tr = some s) (hlen : tr.length < 2 ^ 62) : Safe s := by
  have h := inv_run tr 0 (init threads) s (inv_init threads) (by omega) hrun
  exact safe_of_inv h (by omega)

/-- Witness of C10: three threads; thread 0 locks, thread 1 fails a shared
attempt and runs its guard, thread 0 unlocks, thread 2 acquires shared. -/
theorem safety_within_realistic_run_witness :
    Safe ⟨1, [Pc.idle, Pc.in_lock_shared ⟨1⟩, Pc.shared]⟩ :=
  safety_within_realistic_run 3
    [(0, Action.lock_cas false), (1, Action.shared_fetch_add), (1, Action.shared_guard_cas),
      (0, Action.unlock_store), (2, Action.shared_fetch_add)]
    ⟨1, [Pc.idle, Pc.in_lock_shared ⟨1⟩, Pc.shared]⟩ (by decide) (by norm_num)

/-! ## Interleavings: a long run that wraps the word -/

theorem run_append (tr1 : List (Nat × Action)) :
    ∀ (s s1 : State) (tr2 : List (Nat × Action)), run s tr1 = some s1 →
      run s (tr1 ++ tr2) = run s1 tr2 := by
  induction tr1 with
  | nil =>
    intro s s1 tr2 h
    simp only [run, Option.some.injEq] at h
    subst h
    rfl
  | cons x rest ih =>
    intro s s1 tr2 h
    obtain ⟨t, a⟩ := x
    cases hs : step s t a with
    | none => simp [run, hs] at h
    | some s2 =>
      simp only [run, hs, List.cons_append] at h ⊢
      exact ih s2 s1 tr2 h

theorem run_cons {s s1 : State} {t : Nat} {a : Action} (rest : List (Nat × Action))
    (hs : step s t a = some s1) : run s ((t, a) :: rest) = run s1 rest := by
  simp only [run, hs]

theorem wait_min (j : Nat) :
    ((⟨min j 4000⟩ : Sleepyhead).wait).1 = ⟨min (j + 1) 4000⟩ := by
  simp only [Sleepyhead.wait, Sleepyhead.max_spin]
  by_cases h : min j 4000 < 4000
  · rw [if_pos h]
    have e : (min j 4000 + 1) % 2 ^ 32 = min (j + 1) 4000 := by omega
    simp only [e]
  · rw [if_neg h]
    have e : min j 4000 = min (j + 1) 4000 := by omega
    simp only [e]

theorem step_guard_miss (m : Nat) (l : List Pc) (t prev : Nat) (sleepy : Sleepyhead)
    (hpc : l[t]? = some (Pc.guard prev sleepy)) (hne : m ≠ (prev + 1) % int_mod) :
    step ⟨m, l⟩ t Action.shared_guard_cas =
      some ⟨m, l.set t (Pc.in_lock_shared (sleepy.wait).1)⟩ := by
  simp [step, hpc, thread_step, lock_shared_guard_miss hne]

theorem step_fetch_set (m : Nat) (l : List Pc) (t : Nat) (sleepy : Sleepyhead)
    (hpc : l[t]? = some (Pc.in_lock_shared sleepy)) (hflag : flag_clear m = false) :
    step ⟨m, l⟩ t Action.shared_fetch_add =
      some ⟨(m + 1) % int_mod, l.set t (Pc.guard m sleepy)⟩ := by
  simp [step, hpc, thread_step, lock_shared_fetch_set hflag, after_shared_fetch]

theorem long_run_round (j : Nat) (hj : 2 * j + 4 < 2 ^ 63) :
    run (long_run_state j)
      [(1, Action.shared_guard_cas), (1, Action.shared_fetch_add),
        (2, Action.shared_guard_cas), (2, Action.shared_fetch_add)] =
      some (long_run_state (j + 1)) := by
  have e64 : int_mod = 2 ^ 64 := int_mod_eq
  unfold long_run_state
  -- thread 1: its guard expects `2 ^ 63 + 2 * j + 1` and fails; its fetch-add captures the word
  rw [run_cons _ (step_guard_miss _ _ 1 (2 ^ 63 + 2 * j) ⟨min j 4000⟩ rfl
    (by rw [e64]; omega))]
  rw [wait_min]
  rw [run_cons _ (step_fetch_set _ _ 1 ⟨min (j + 1) 4000⟩ rfl
    (flag_set_of_ge (by omega) (by omega)))]
  -- thread 2: its guard expects `2 ^ 63 + 2 * j + 2` and fails; its fetch-add captures the word
  rw [run_cons _ (step_guard_miss _ _ 2 (2 ^ 63 + 2 * j + 1) ⟨min j 4000⟩ rfl
    (by rw [e64]; omega))]
  rw [wait_min]
  rw [run_cons _ (step_fetch_set _ _ 2 ⟨min (j + 1) 4000⟩ rfl
    (flag_set_of_ge (by rw [e64]; omega) (by rw [e64]; omega)))]
  have ea : (2 ^ 63 + 2 * j + 2 + 1) % int_mod = 2 ^ 63 + 2 * j + 3 := by
    rw [e64]; omega
  have eb : (2 ^ 63 + 2 * j + 3 + 1) % int_mod = 2 ^ 63 + 2 * (j + 1) + 2 := by
    rw [e64]; omega
  have ec : 2 ^ 63 + 2 * j + 2 = 2 ^ 63 + 2 * (j + 1) := by omega
  have ed : 2 ^ 63 + 2 * j + 3 = 2 ^ 63 + 2 * (j + 1) + 1 := by omega
  simp only [ea, eb, List.set_cons_succ, List.set_cons_zero, run]
  rw [ec, ed]

theorem run_long_run (j : Nat) (hj : 2 * j + 2 < 2 ^ 63) :
    run (init 4) (long_run j) = some (long_run_state j) := by
  induction j with
  | zero => decide
  | succ j ih =>
    have h0 := ih (by omega)
    simp only [long_run]
    rw [run_append _ _ _ _ h0]
    exact long_run_round j (by omega)

theorem run_long_run_then (tr : List (Nat × Action)) :
    run (init 4) (long_run (2 ^ 62 - 2) ++ tr) = run (long_run_state (2 ^ 62 - 2)) tr :=
  run_append _ _ _ _ (run_long_run (2 ^ 62 - 2) (by norm_num))

/-! ## Interleavings: the claims about every reachable state -/

/-- C1, as stated, fails: the long interleaving, run until the word wraps from
`2 ^ 64 - 1` to 0 under the exclusive holder thread 0, followed by the
compare-exchange of `lock()` by thread 3, which succeeds: threads 0 and 3 are
both between a successful `lock()` and its `unlock()`. -/
theorem mutual_exclusion_counterexample :
    run (init 4) (long_run (2 ^ 62 - 2) ++
      [(1, Action.shared_guard_cas), (1, Action.shared_fetch_add),
        (2, Action.shared_guard_cas), (2, Action.shared_fetch_add),
        (3, Action.lock_cas false)]) =
      some ⟨2 ^ 63,
        [Pc.exclusive, Pc.guard (2 ^ 64 - 2) ⟨4000⟩, Pc.guard (2 ^ 64 - 1) ⟨4000⟩,
          Pc.exclusive]⟩ ∧
    exclusive_holders ⟨2 ^ 63,
      [Pc.exclusive, Pc.guard (2 ^ 64 - 2) ⟨4000⟩, Pc.guard (2 ^ 64 - 1) ⟨4000⟩,
        Pc.exclusive]⟩ = 2 :=
  ⟨(run_long_run_then _).trans (by decide), by decide⟩

/-- C1, amended: in every state reached from a fresh mutex by fewer than
`2 ^ 63` atomic operations, at most one thread is between a successful
`lock()` and its `unlock()`. -/
theorem mutual_exclusion_short_runs (threads : Nat) (tr : List (Nat × Action)) (s : State)
    (hrun : run (init threads) tr = some s) (hlen : tr.length < 2 ^ 63) :
    exclusive_holders s ≤ 1 := by
  have h := inv_run tr 0 (init threads) s (inv_init threads) (by omega) hrun
  by_cases hE : exclusive_holders s = 0
  · omega
  · have := (h.2.1 hE).1
    omega

/-- Witness of C1 amended: two threads race for the exclusive lock. -/
theorem mutual_exclusion_short_runs_witness :
    exclusive_holders ⟨2 ^ 63, [Pc.exclusive, Pc.in_lock ⟨1⟩]⟩ ≤ 1 :=
  mutual_exclusion_short_runs 2 [(0, Action.lock_cas false), (1, Action.lock_cas false)]
    ⟨2 ^ 63, [Pc.exclusive, Pc.in_lock ⟨1⟩]⟩ (by decide) (by norm_num)

/-- C2, as stated, fails: the long interleaving, run until the word wraps from
`2 ^ 64 - 1` to 0 under the exclusive holder thread 0, followed by the
fetch-add of `lock_shared()` by thread 3, which returns 0 and acquires: thread 3
holds the shared lock while thread 0 holds the exclusive lock. -/
theorem reader_writer_exclusion_counterexample :
    run (init 4) (long_run (2 ^ 62 - 2) ++
      [(1, Action.shared_guard_cas), (1, Action.shared_fetch_add),
        (2, Action.shared_guard_cas), (2, Action.shared_fetch_add),
        (3, Action.shared_fetch_add)]) =
      some ⟨1,
        [Pc.exclusive, Pc.guard (2 ^ 64 - 2) ⟨4000⟩, Pc.guard (2 ^ 64 - 1) ⟨4000⟩,
          Pc.shared]⟩ ∧
    (⟨1, [Pc.exclusive, Pc.guard (2 ^ 64 - 2) ⟨4000⟩, Pc.guard (2 ^ 64 - 1) ⟨4000⟩,
        Pc.shared]⟩ : State).pcs[0]? = some Pc.exclusive ∧
    (⟨1, [Pc.exclusive, Pc.guard (2 ^ 64 - 2) ⟨4000⟩, Pc.guard (2 ^ 64 - 1) ⟨4000⟩,
        Pc.shared]⟩ : State).pcs[3]? = some Pc.shared :=
  ⟨(run_long_run_then _).trans (by decide), by decide, by decide⟩

theorem count_pos_of_getElem? {l : List Pc} {t : Nat} {pc : Pc} (h : l[t]? = some pc) :
    0 < l.count pc :=
  List.count_pos_iff.mpr (mem_of_getElem?_some h)

/-- C2, amended: in every state reached from a fresh mutex by fewer than
`2 ^ 63` atomic operations, no thread is between a successful `lock_shared()`
and its `unlock_shared()` while a thread is between a successful `lock()` and
its `unlock()`. -/
theorem reader_writer_exclusion_short_runs (threads : Nat) (tr : List (Nat × Action))
    (s : State) (hrun : run (init threads) tr = some s) (hlen : tr.length < 2 ^ 63) :
    (∀ t u : Nat, ¬ (s.pcs[t]? = some Pc.shared ∧ s.pcs[u]? = some Pc.exclusive)) ∧
    (0 < exclusive_holders s → shared_holders s = 0) := by
  have h := inv_run tr 0 (init threads) s (inv_init threads) (by omega) hrun
  have hx : 0 < exclusive_holders s → shared_holders s = 0 := by
    intro hE
    exact (h.2.1 (by omega)).2.1
  refine ⟨?_, hx⟩
  rintro t u ⟨ht, hu⟩
  have h1 : 0 < shared_holders s := count_pos_of_getElem? ht
  have h2 : 0 < exclusive_holders s := count_pos_of_getElem? hu
  have := hx h2
  omega

/-- Witness of C2 amended: two shared holders and a thread spinning in `lock()`. -/
theorem reader_writer_exclusion_short_runs_witness :
    (∀ t u : Nat, ¬ ((⟨2, [Pc.shared, Pc.shared, Pc.in_lock ⟨1⟩]⟩ : State).pcs[t]? = some Pc.shared ∧
      (⟨2, [Pc.shared, Pc.shared, Pc.in_lock ⟨1⟩]⟩ : State).pcs[u]? = some Pc.exclusive)) ∧
    (0 < exclusive_holders ⟨2, [Pc.shared, Pc.shared, Pc.in_lock ⟨1⟩]⟩ →
      shared_holders ⟨2, [Pc.shared, Pc.shared, Pc.in_lock ⟨1⟩]⟩ = 0) :=
  reader_writer_exclusion_short_runs 3
    [(0, Action.shared_fetch_add), (1, Action.shared_fetch_add), (2, Action.lock_cas false)]
    ⟨2, [Pc.shared, Pc.shared, Pc.in_lock ⟨1⟩]⟩ (by decide) (by norm_num)

/-- C6, as stated, fails: the long interleaving leads, one step before the
wrap, to the word `2 ^ 64 - 1`, flag set, under the exclusive holder thread 0;
the fetch-add of `lock_shared()` by thread 2 then makes the word 0, flag clear. -/
theorem reader_count_carry_counterexample :
    run (init 4) (long_run (2 ^ 62 - 2) ++
      [(1, Action.shared_guard_cas), (1, Action.shared_fetch_add),
        (2, Action.shared_guard_cas)]) =
      some ⟨2 ^ 64 - 1,
        [Pc.exclusive, Pc.guard (2 ^ 64 - 2) ⟨4000⟩, Pc.in_lock_shared ⟨4000⟩, Pc.idle]⟩ ∧
    step ⟨2 ^ 64 - 1,
      [Pc.exclusive, Pc.guard (2 ^ 64 - 2) ⟨4000⟩, Pc.in_lock_shared ⟨4000⟩, Pc.idle]⟩ 2
      Action.shared_fetch_add =
      some ⟨0, [Pc.exclusive, Pc.guard (2 ^ 64 - 2) ⟨4000⟩, Pc.guard (2 ^ 64 - 1) ⟨4000⟩,
        Pc.idle]⟩ ∧
    flag_clear (2 ^ 64 - 1) = false ∧ flag_clear 0 = true :=
  ⟨(run_long_run_then _).trans (by decide), by decide, by decide, by decide⟩

theorem after_shared_fetch_word (m : Nat) (sleepy : Sleepyhead) :
    (after_shared_fetch (lock_shared_fetch m) sleepy).1 = (fetch_add m 1).2 := by
  unfold lock_shared_fetch
  simp only []
  split
  · rfl
  · split <;> rfl

theorem step_fetch_word {s s1 : State} {t : Nat}
    (h : step s t Action.shared_fetch_add = some s1) : s1.m = (fetch_add s.m 1).2 := by
  obtain ⟨pc, m1, pc1, -, hts, rfl⟩ := step_some h
  cases pc <;> simp only [thread_step, Option.some.injEq, reduceCtorEq] at hts
  all_goals
    have hm : m1 = _ := (congrArg Prod.fst hts).symm
    rw [hm]
    exact after_shared_fetch_word _ _

/-- C6, amended: in every state reached from a fresh mutex by fewer than
`2 ^ 63 - 1` atomic operations, the fetch-add of `lock_shared()` adds one to
the word without wrapping, adds one to the reader count and leaves the
exclusive flag as it was. -/
theorem reader_count_no_carry_short_runs (threads : Nat) (tr : List (Nat × Action))
    (s : State) (hrun : run (init threads) tr = some s) (hlen : tr.length + 1 < 2 ^ 63) :
    (fetch_add s.m 1).2 = s.m + 1 ∧
    flag_clear (fetch_add s.m 1).2 = flag_clear s.m ∧
    reader_count (fetch_add s.m 1).2 = reader_count s.m + 1 ∧
    (∀ (t : Nat) (s1 : State), step s t Action.shared_fetch_add = some s1 →
      flag_clear s1.m = flag_clear s.m) := by
  have h := inv_run tr 0 (init threads) s (inv_init threads) (by omega) hrun
  have hb := inv_bound h
  have hadd : (fetch_add s.m 1).2 = s.m + 1 := by
    simp only [fetch_add, int_mod_eq]
    omega
  have hmask : biggest_bit_s_mask = 2 ^ 63 := biggest_bit_s_mask_eq
  have hflag : flag_clear (s.m + 1) = flag_clear s.m ∧
      reader_count (s.m + 1) = reader_count s.m + 1 := by
    unfold reader_count
    rw [hmask]
    by_cases hE : exclusive_holders s = 0
    · have := (h.1 hE).2
      refine ⟨?_, by omega⟩
      rw [flag_clear_of_lt (show s.m + 1 < 2 ^ 63 by omega),
        flag_clear_of_lt (show s.m < 2 ^ 63 by omega)]
    · obtain ⟨-, -, hge, hle⟩ := h.2.1 hE
      refine ⟨?_, by omega⟩
      rw [flag_set_of_ge (show 2 ^ 63 ≤ s.m + 1 by omega) (by omega),
        flag_set_of_ge hge (by omega)]
  refine ⟨hadd, by rw [hadd]; exact hflag.1, by rw [hadd]; exact hflag.2, ?_⟩
  intro t s1 hs
  rw [step_fetch_word hs, hadd]
  exact hflag.1

/-- Witness of C6 amended: thread 0 holds the exclusive lock and thread 1 has
made one failed shared attempt. -/
theorem reader_count_no_carry_short_runs_witness :
    (fetch_add (2 ^ 63 + 1) 1).2 = 2 ^ 63 + 1 + 1 ∧
    flag_clear (fetch_add (2 ^ 63 + 1) 1).2 = flag_clear (2 ^ 63 + 1) ∧
    reader_count (fetch_add (2 ^ 63 + 1) 1).2 = reader_count (2 ^ 63 + 1) + 1 ∧
    (∀ (t : Nat) (s1 : State),
      step ⟨2 ^ 63 + 1, [Pc.exclusive, Pc.guard (2 ^ 63) ⟨0⟩]⟩ t Action.shared_fetch_add =
        some s1 →
      flag_clear s1.m = flag_clear (2 ^ 63 + 1)) :=
  reader_count_no_carry_short_runs 2 [(0, Action.lock_cas false), (1, Action.shared_fetch_add)]
    ⟨2 ^ 63 + 1, [Pc.exclusive, Pc.guard (2 ^ 63) ⟨0⟩]⟩ (by decide) (by norm_num)

end SharedSpinMutex
